import Mathlib

/-!
Verification of the plywood cutting optimizer core (src/app.py).

The shallow embedding below translates the packing core of the source:
the catalog expansion and shelf placement loop of arrange_panels
(app.py lines 20 to 73) and the metrics block of optimize_cutting
(app.py lines 126 to 130).  Real-valued quantities (millimetres and
areas) are modelled by rationals, so every definition is executable.
-/

namespace Plywood

/-- One panel instance to place, a tuple (width, height, depth) as built
by the expansion loop at app.py lines 21 to 24. -/
structure Panel where
  w : ℚ
  h : ℚ
  d : ℚ
deriving DecidableEq, Repr

/-- One committed placement, a tuple
(x, y, placed_width, placed_height, depth, rotated) as appended to
current_sheet in app.py lines 37, 43, 54, 59 and 68. -/
structure Placed where
  x : ℚ
  y : ℚ
  pw : ℚ
  ph : ℚ
  d : ℚ
  rotated : Bool
deriving DecidableEq, Repr

/-- The mutable loop state of arrange_panels: completed sheets, the sheet
being filled, and the cursor triple x_cursor, y_cursor, row_height
(app.py lines 28 to 31). -/
structure PackState where
  sheets : List (List Placed)
  current : List Placed
  x_cursor : ℚ
  y_cursor : ℚ
  row_height : ℚ
deriving DecidableEq, Repr

/-- A request row of the panel table: width, height, depth, quantity
(app.py line 11). -/
structure PanelRow where
  width : ℚ
  height : ℚ
  depth : ℚ
  quantity : ℕ
deriving DecidableEq, Repr

/-- Catalog expansion, app.py lines 21 to 24: each row contributes
quantity consecutive copies of its (width, height, depth) tuple. -/
def expand (panel_list : List PanelRow) : List Panel :=
  panel_list.flatMap fun r => List.replicate r.quantity ⟨r.width, r.height, r.depth⟩

/-- Insertion step of the stable descending sort: the new panel goes
after every already-sorted panel of area greater than or equal to its
own, so equal-area panels keep their original relative order. -/
def insert_panel (p : Panel) : List Panel → List Panel
  | [] => [p]
  | q :: rest =>
    if p.w * p.h ≤ q.w * q.h then q :: insert_panel p rest else p :: q :: rest

/-- app.py line 26: panels.sort(key area, reverse), a stable sort by
width times height descending (CPython sort is stable, and reverse
applies to the comparison, so equal keys keep input order).  Modelled
as left-to-right stable insertion. -/
def sortPanels (l : List Panel) : List Panel :=
  l.foldl (fun acc p => insert_panel p acc) []

/-- The loop body of arrange_panels, app.py lines 33 to 70, one panel:
try unrotated then rotated in the current row, else close the row and
try unrotated then rotated in a fresh row, else append the current
sheet and start a new sheet with the panel placed unrotated at the
origin.  Note the row-close branch resets row_height to 0 before
taking max with the placed height, and the new-sheet branch assigns
row_height directly. -/
def place_step (sheet_width sheet_height : ℚ) (s : PackState) (p : Panel) : PackState :=
  if s.x_cursor + p.w ≤ sheet_width ∧ s.y_cursor + p.h ≤ sheet_height then
    { s with current := s.current ++ [⟨s.x_cursor, s.y_cursor, p.w, p.h, p.d, false⟩],
             x_cursor := s.x_cursor + p.w,
             row_height := max s.row_height p.h }
  else if s.x_cursor + p.h ≤ sheet_width ∧ s.y_cursor + p.w ≤ sheet_height then
    { s with current := s.current ++ [⟨s.x_cursor, s.y_cursor, p.h, p.w, p.d, true⟩],
             x_cursor := s.x_cursor + p.h,
             row_height := max s.row_height p.w }
  else
    if s.y_cursor + s.row_height + p.h ≤ sheet_height then
      { s with current := s.current ++
                 [⟨0, s.y_cursor + s.row_height, p.w, p.h, p.d, false⟩],
               x_cursor := p.w, y_cursor := s.y_cursor + s.row_height,
               row_height := max 0 p.h }
    else if s.y_cursor + s.row_height + p.w ≤ sheet_height then
      { s with current := s.current ++
                 [⟨0, s.y_cursor + s.row_height, p.h, p.w, p.d, true⟩],
               x_cursor := p.h, y_cursor := s.y_cursor + s.row_height,
               row_height := max 0 p.w }
    else
      { sheets := s.sheets ++ [s.current],
        current := [⟨0, 0, p.w, p.h, p.d, false⟩],
        x_cursor := p.w, y_cursor := 0, row_height := p.h }

/-- The initial loop state of app.py lines 28 to 31. -/
def initState : PackState := ⟨[], [], 0, 0, 0⟩

/-- The sheets returned by arrange_panels: the completed ones plus the
unconditional final append of current_sheet (app.py line 72). -/
def sheetsOf (s : PackState) : List (List Placed) :=
  s.sheets ++ [s.current]

/-- The packing engine on an already-expanded instance list: sort by
area descending (app.py line 26) and run the placement loop
(app.py lines 33 to 72). -/
def pack (sheet_width sheet_height : ℚ) (panels : List Panel) : List (List Placed) :=
  sheetsOf ((sortPanels panels).foldl (place_step sheet_width sheet_height) initState)

/-- arrange_panels, app.py lines 20 to 73: expand the request table,
then pack. -/
def arrange_panels (sheet_width sheet_height : ℚ) (panel_list : List PanelRow) :
    List (List Placed) :=
  pack sheet_width sheet_height (expand panel_list)

/-- app.py line 126: total requested panel count. -/
def total_panels (panel_list : List PanelRow) : ℕ :=
  (panel_list.map (fun r => r.quantity)).sum

/-- app.py line 127: total panel area in square metres. -/
def total_panel_area (panel_list : List PanelRow) : ℚ :=
  ((panel_list.map (fun r => r.width * r.height * (r.quantity : ℚ))).sum) / 1000000

/-- app.py line 128: total sheet area in square metres, over the number
of sheets the packing produced. -/
def total_sheet_area (sheet_width sheet_height : ℚ) (n_sheets : ℕ) : ℚ :=
  sheet_width * sheet_height / 1000000 * n_sheets

/-- app.py line 130: material utilization percentage. -/
def utilization (sheet_width sheet_height : ℚ) (panel_list : List PanelRow) : ℚ :=
  total_panel_area panel_list /
    total_sheet_area sheet_width sheet_height
      (arrange_panels sheet_width sheet_height panel_list).length * 100

/-- app.py line 139: reported waste percentage. -/
def waste_percentage (sheet_width sheet_height : ℚ) (panel_list : List PanelRow) : ℚ :=
  100 - utilization sheet_width sheet_height panel_list

/-- A panel fits the sheet in at least one of the two orientations
(the precondition demanded by spec section 4.2). -/
def fitsEither (sheet_width sheet_height : ℚ) (p : Panel) : Prop :=
  (p.w ≤ sheet_width ∧ p.h ≤ sheet_height) ∨
    (p.h ≤ sheet_width ∧ p.w ≤ sheet_height)

instance (W H : ℚ) (p : Panel) : Decidable (fitsEither W H p) := by
  unfold fitsEither; infer_instance

/-- The source instance of a placement: undo the swap recorded by the
rotated flag (app.py lines 43 and 59 store (height, width) when
rotating). -/
def source (pl : Placed) : Panel :=
  if pl.rotated then ⟨pl.ph, pl.pw, pl.d⟩ else ⟨pl.pw, pl.ph, pl.d⟩

/-- Two placements overlap when their open rectangles share a point,
i.e. share positive area. -/
def Overlaps (a b : Placed) : Prop :=
  max a.x b.x < min (a.x + a.pw) (b.x + b.pw) ∧
    max a.y b.y < min (a.y + a.ph) (b.y + b.ph)

instance (a b : Placed) : Decidable (Overlaps a b) := by
  unfold Overlaps; infer_instance

/-- The sort key of app.py line 26: width times height. -/
def area (p : Panel) : ℚ := p.w * p.h

/-- The descending-area order maintained by the sort. -/
def areaGE (a b : Panel) : Prop := area b ≤ area a

instance (a b : Panel) : Decidable (areaGE a b) := by
  unfold areaGE; infer_instance

theorem insert_panel_perm (p : Panel) (l : List Panel) :
    (insert_panel p l).Perm (p :: l) := by
  induction l with
  | nil => exact List.Perm.refl _
  | cons q rest ih =>
    unfold insert_panel
    split
    · exact (ih.cons q).trans (List.Perm.swap p q rest)
    · exact List.Perm.refl _

theorem sortPanels_foldl_perm (l acc : List Panel) :
    (l.foldl (fun acc p => insert_panel p acc) acc).Perm (acc ++ l) := by
  induction l generalizing acc with
  | nil => simp
  | cons p rest ih =>
    refine (ih (insert_panel p acc)).trans ?_
    refine (((insert_panel_perm p acc).append_right rest).trans ?_)
    exact List.perm_middle.symm

theorem sortPanels_perm (l : List Panel) : (sortPanels l).Perm l := by
  simpa [sortPanels] using sortPanels_foldl_perm l []

theorem insert_panel_pairwise {p : Panel} {l : List Panel}
    (hl : l.Pairwise areaGE) : (insert_panel p l).Pairwise areaGE := by
  induction l with
  | nil => simp [insert_panel]
  | cons q rest ih =>
    rw [List.pairwise_cons] at hl
    unfold insert_panel
    split
    · rename_i hle
      rw [List.pairwise_cons]
      refine ⟨?_, ih hl.2⟩
      intro x hx
      rcases List.mem_cons.mp ((insert_panel_perm p rest).mem_iff.mp hx) with h | h
      · subst h; exact hle
      · exact hl.1 x h
    · rename_i hgt
      rw [List.pairwise_cons]
      refine ⟨?_, List.pairwise_cons.mpr hl⟩
      intro x hx
      rcases List.mem_cons.mp hx with h | h
      · subst h; exact le_of_lt (lt_of_not_le hgt)
      · exact le_trans (hl.1 x h) (le_of_lt (lt_of_not_le hgt))

theorem sortPanels_foldl_pairwise (l : List Panel) :
    ∀ acc : List Panel, acc.Pairwise areaGE →
      (l.foldl (fun acc p => insert_panel p acc) acc).Pairwise areaGE := by
  induction l with
  | nil => intro acc h; exact h
  | cons p rest ih => intro acc h; exact ih _ (insert_panel_pairwise h)

theorem sortPanels_pairwise (l : List Panel) : (sortPanels l).Pairwise areaGE :=
  sortPanels_foldl_pairwise l [] (List.Pairwise.nil)

theorem insert_panel_filter {p : Panel} {l : List Panel}
    (hl : l.Pairwise areaGE) (A : ℚ) :
    (insert_panel p l).filter (fun q => decide (area q = A)) =
      l.filter (fun q => decide (area q = A)) ++
        (if area p = A then [p] else []) := by
  induction l with
  | nil => simp [insert_panel, List.filter_cons]
  | cons q rest ih =>
    rw [List.pairwise_cons] at hl
    unfold insert_panel
    split
    · rename_i hle
      rw [List.filter_cons, ih hl.2, List.filter_cons]
      split <;> simp
    · rename_i hgt
      have hqlt : area q < area p := lt_of_not_le (by simpa [area, insert_panel] using hgt)
      by_cases hA : area p = A
      · have hnil : (q :: rest).filter (fun x => decide (area x = A)) = [] := by
          rw [List.filter_eq_nil_iff]
          intro x hx
          have hxq : area x ≤ area q := by
            rcases List.mem_cons.mp hx with h | h
            · subst h; exact le_refl _
            · exact hl.1 x h
          simp only [decide_eq_true_eq]
          intro hxA
          exact absurd (hA ▸ hxA ▸ hxq) (not_le_of_lt hqlt)
        rw [List.filter_cons_of_pos (by simp [hA]), hnil]
        simp [hA]
      · rw [List.filter_cons]
        simp [hA]

theorem sortPanels_foldl_filter (l : List Panel) (A : ℚ) :
    ∀ acc : List Panel, acc.Pairwise areaGE →
      (l.foldl (fun acc p => insert_panel p acc) acc).filter
          (fun q => decide (area q = A)) =
        acc.filter (fun q => decide (area q = A)) ++
          l.filter (fun q => decide (area q = A)) := by
  induction l with
  | nil => intro acc h; simp
  | cons p rest ih =>
    intro acc h
    rw [List.foldl_cons, ih _ (insert_panel_pairwise h), insert_panel_filter h A,
      List.filter_cons]
    by_cases hA : area p = A <;> simp [hA]

/-- Stability of the sort at app.py line 26: for every area value, the
equal-area panels appear in the sorted output exactly in their
original order. -/
theorem sortPanels_filter (l : List Panel) (A : ℚ) :
    (sortPanels l).filter (fun q => decide (area q = A)) =
      l.filter (fun q => decide (area q = A)) := by
  simpa [sortPanels] using sortPanels_foldl_filter l A [] List.Pairwise.nil

/-- Each pass of the placement loop (app.py lines 33 to 70) commits the
processed panel exactly once: the flattened output grows by one
placement whose source instance is that panel. -/
theorem place_step_flatten_map (W H : ℚ) (s : PackState) (p : Panel) :
    ((sheetsOf (place_step W H s p)).flatten).map source =
      ((sheetsOf s).flatten).map source ++ [p] := by
  unfold place_step
  split
  · simp [sheetsOf, source]
  · split
    · simp [sheetsOf, source]
    · split
      · simp [sheetsOf, source]
      · split
        · simp [sheetsOf, source]
        · simp [sheetsOf, source]

theorem foldl_flatten_map (W H : ℚ) (ps : List Panel) :
    ∀ s : PackState,
      ((sheetsOf (ps.foldl (place_step W H) s)).flatten).map source =
        ((sheetsOf s).flatten).map source ++ ps := by
  induction ps with
  | nil => intro s; simp
  | cons p rest ih =>
    intro s
    rw [List.foldl_cons, ih (place_step W H s p), place_step_flatten_map]
    simp

/-- The flattened packing output, in placement order, is exactly the
area-sorted instance list (each instance placed exactly once, in
processing order). -/
theorem pack_flatten_map (W H : ℚ) (panels : List Panel) :
    ((pack W H panels).flatten).map source = sortPanels panels := by
  unfold pack
  rw [foldl_flatten_map]
  simp [sheetsOf, initState]

theorem expand_length (panel_list : List PanelRow) :
    (expand panel_list).length = total_panels panel_list := by
  simp [expand, total_panels, List.length_flatMap, Function.comp_def]

theorem area_source (pl : Placed) : area (source pl) = pl.pw * pl.ph := by
  unfold source area
  cases pl.rotated <;> simp [mul_comm]

/-- Claim C5: conservation.  The flattened packing output has exactly
one placement per requested panel: its length equals the sum of the
request quantities, the catalog expansion emits exactly that many
instances, and the multiset of source instances of all placements is
exactly the expanded catalog (nothing dropped or duplicated). -/
theorem C5_conservation (W H : ℚ) (panel_list : List PanelRow) :
    ((arrange_panels W H panel_list).flatten).length = total_panels panel_list ∧
      (expand panel_list).length = total_panels panel_list ∧
      (((arrange_panels W H panel_list).flatten).map source).Perm
        (expand panel_list) := by
  have hperm : (((arrange_panels W H panel_list).flatten).map source).Perm
      (expand panel_list) := by
    rw [arrange_panels, pack_flatten_map]
    exact sortPanels_perm _
  refine ⟨?_, expand_length panel_list, hperm⟩
  have hlen := hperm.length_eq
  rw [List.length_map] at hlen
  rw [hlen, expand_length]

/-- Claim C6: processing order.  The flattened output is the instance
list sorted by area descending; that sorted list is a permutation of
the input, its areas are non-increasing, and equal-area instances
keep their original (catalog) order; consequently the placements, in
placement order, have non-increasing placed areas. -/
theorem C6_sorted_processing (W H : ℚ) (panels : List Panel) :
    ((pack W H panels).flatten).map source = sortPanels panels ∧
      (sortPanels panels).Perm panels ∧
      (sortPanels panels).Pairwise (fun a b => b.w * b.h ≤ a.w * a.h) ∧
      (∀ A : ℚ, (sortPanels panels).filter (fun q => decide (q.w * q.h = A)) =
        panels.filter (fun q => decide (q.w * q.h = A))) ∧
      ((pack W H panels).flatten).Pairwise
        (fun a b => b.pw * b.ph ≤ a.pw * a.ph) := by
  refine ⟨pack_flatten_map W H panels, sortPanels_perm panels,
    sortPanels_pairwise panels, sortPanels_filter panels, ?_⟩
  have h1 : ((pack W H panels).flatten).map source = sortPanels panels :=
    pack_flatten_map W H panels
  have h2 := sortPanels_pairwise panels
  rw [← h1, List.pairwise_map] at h2
  refine h2.imp ?_
  intro a b hab
  have ha := area_source a
  have hb := area_source b
  unfold areaGE at hab
  rw [ha, hb] at hab
  exact hab

/-- Claim C7: rotation validity.  Every placement in the packing output
comes from an input instance: same depth, and placed_width and
placed_height are the instance width and height, swapped exactly when
the rotated flag is set. -/
theorem C7_rotation_validity (W H : ℚ) (panels : List Panel) (pl : Placed)
    (hmem : pl ∈ (pack W H panels).flatten) :
    ∃ q ∈ panels, pl.d = q.d ∧
      (pl.rotated = true → pl.pw = q.h ∧ pl.ph = q.w) ∧
      (pl.rotated = false → pl.pw = q.w ∧ pl.ph = q.h) := by
  have h1 : source pl ∈ sortPanels panels := by
    rw [← pack_flatten_map W H panels]
    exact List.mem_map_of_mem source hmem
  have h2 : source pl ∈ panels := (sortPanels_perm panels).mem_iff.mp h1
  refine ⟨source pl, h2, ?_, ?_, ?_⟩ <;>
    (unfold source; cases hr : pl.rotated <;> simp [hr])

/-- Witness for C7 at a concrete run: the single 3 by 2 panel on a
10 by 10 sheet is placed unrotated at the origin. -/
theorem C7_witness :
    ∃ q ∈ [(⟨3, 2, 7⟩ : Panel)], (7 : ℚ) = q.d ∧
      ((false : Bool) = true → (3 : ℚ) = q.h ∧ (2 : ℚ) = q.w) ∧
      ((false : Bool) = false → (3 : ℚ) = q.w ∧ (2 : ℚ) = q.h) :=
  C7_rotation_validity 10 10 [⟨3, 2, 7⟩] ⟨0, 0, 3, 2, 7, false⟩
    (by with_unfolding_all decide)

theorem no_overlap_of_le_x {a b : Placed} (h : a.x + a.pw ≤ b.x) :
    ¬ Overlaps a b := by
  rintro ⟨h1, -⟩
  exact absurd h1 (not_lt.mpr ((min_le_left _ _).trans (h.trans (le_max_right _ _))))

theorem no_overlap_of_le_y {a b : Placed} (h : a.y + a.ph ≤ b.y) :
    ¬ Overlaps a b := by
  rintro ⟨-, h2⟩
  exact absurd h2 (not_lt.mpr ((min_le_left _ _).trans (h.trans (le_max_right _ _))))

/-- The geometric invariant of the placement loop: cursors are
non-negative, every committed placement on the open sheet lies either
entirely above the current row (its bottom edge at or above y_cursor)
or inside the current row (top edge at y_cursor, height within
row_height, right edge at or left of x_cursor), placements on the
open sheet are pairwise non-overlapping, and so are those on every
completed sheet. -/
def StateInv (s : PackState) : Prop :=
  0 ≤ s.y_cursor ∧ 0 ≤ s.row_height ∧
    (∀ q ∈ s.current, q.y + q.ph ≤ s.y_cursor ∨
      (q.y = s.y_cursor ∧ q.ph ≤ s.row_height ∧ q.x + q.pw ≤ s.x_cursor)) ∧
    s.current.Pairwise (fun a b => ¬ Overlaps a b) ∧
    (∀ sheet ∈ s.sheets, sheet.Pairwise (fun a b => ¬ Overlaps a b))

theorem place_step_inv (W H : ℚ) {s : PackState} {p : Panel}
    (hw : 0 ≤ p.w) (hh : 0 ≤ p.h) (hs : StateInv s) :
    StateInv (place_step W H s p) := by
  obtain ⟨hy, hrh, hband, hpair, hsheets⟩ := hs
  unfold place_step
  split_ifs with h1 h2 h3 h4
  · refine ⟨hy, hrh.trans (le_max_left _ _), ?_, ?_, hsheets⟩
    · intro q hq
      rcases List.mem_append.mp hq with hq | hq
      · rcases hband q hq with hprev | ⟨hqy, hqh, hqx⟩
        · exact Or.inl hprev
        · exact Or.inr ⟨hqy, hqh.trans (le_max_left _ _),
            hqx.trans (le_add_of_nonneg_right hw)⟩
      · rcases List.mem_singleton.mp hq with rfl
        exact Or.inr ⟨rfl, le_max_right _ _, le_refl _⟩
    · rw [List.pairwise_append]
      refine ⟨hpair, List.pairwise_singleton _ _, ?_⟩
      intro a ha b hb
      rcases List.mem_singleton.mp hb with rfl
      rcases hband a ha with hprev | ⟨-, -, hax⟩
      · exact no_overlap_of_le_y hprev
      · exact no_overlap_of_le_x hax
  · refine ⟨hy, hrh.trans (le_max_left _ _), ?_, ?_, hsheets⟩
    · intro q hq
      rcases List.mem_append.mp hq with hq | hq
      · rcases hband q hq with hprev | ⟨hqy, hqh, hqx⟩
        · exact Or.inl hprev
        · exact Or.inr ⟨hqy, hqh.trans (le_max_left _ _),
            hqx.trans (le_add_of_nonneg_right hh)⟩
      · rcases List.mem_singleton.mp hq with rfl
        exact Or.inr ⟨rfl, le_max_right _ _, le_refl _⟩
    · rw [List.pairwise_append]
      refine ⟨hpair, List.pairwise_singleton _ _, ?_⟩
      intro a ha b hb
      rcases List.mem_singleton.mp hb with rfl
      rcases hband a ha with hprev | ⟨-, -, hax⟩
      · exact no_overlap_of_le_y hprev
      · exact no_overlap_of_le_x hax
  · refine ⟨add_nonneg hy hrh, le_max_left _ _, ?_, ?_, hsheets⟩
    · intro q hq
      rcases List.mem_append.mp hq with hq | hq
      · rcases hband q hq with hprev | ⟨hqy, hqh, -⟩
        · exact Or.inl (hprev.trans (le_add_of_nonneg_right hrh))
        · exact Or.inl (by rw [hqy]; exact add_le_add_left hqh _)
      · rcases List.mem_singleton.mp hq with rfl
        exact Or.inr ⟨rfl, le_max_right _ _, by rw [zero_add]⟩
    · rw [List.pairwise_append]
      refine ⟨hpair, List.pairwise_singleton _ _, ?_⟩
      intro a ha b hb
      rcases List.mem_singleton.mp hb with rfl
      refine no_overlap_of_le_y ?_
      rcases hband a ha with hprev | ⟨hay, hah, -⟩
      · exact hprev.trans (le_add_of_nonneg_right hrh)
      · rw [hay]; exact add_le_add_left hah _
  · refine ⟨add_nonneg hy hrh, le_max_left _ _, ?_, ?_, hsheets⟩
    · intro q hq
      rcases List.mem_append.mp hq with hq | hq
      · rcases hband q hq with hprev | ⟨hqy, hqh, -⟩
        · exact Or.inl (hprev.trans (le_add_of_nonneg_right hrh))
        · exact Or.inl (by rw [hqy]; exact add_le_add_left hqh _)
      · rcases List.mem_singleton.mp hq with rfl
        exact Or.inr ⟨rfl, le_max_right _ _, by rw [zero_add]⟩
    · rw [List.pairwise_append]
      refine ⟨hpair, List.pairwise_singleton _ _, ?_⟩
      intro a ha b hb
      rcases List.mem_singleton.mp hb with rfl
      refine no_overlap_of_le_y ?_
      rcases hband a ha with hprev | ⟨hay, hah, -⟩
      · exact hprev.trans (le_add_of_nonneg_right hrh)
      · rw [hay]; exact add_le_add_left hah _
  · refine ⟨le_refl _, hh, ?_, List.pairwise_singleton _ _, ?_⟩
    · intro q hq
      rcases List.mem_singleton.mp hq with rfl
      exact Or.inr ⟨rfl, le_refl _, by rw [zero_add]⟩
    · intro sheet hsheet
      rcases List.mem_append.mp hsheet with hsheet | hsheet
      · exact hsheets sheet hsheet
      · rcases List.mem_singleton.mp hsheet with rfl
        exact hpair

theorem foldl_inv (W H : ℚ) (ps : List Panel) :
    ∀ s : PackState, (∀ p ∈ ps, 0 ≤ p.w ∧ 0 ≤ p.h) → StateInv s →
      StateInv (ps.foldl (place_step W H) s) := by
  induction ps with
  | nil => intro s _ h; exact h
  | cons p rest ih =>
    intro s hpos h
    have hp := hpos p (List.mem_cons_self p rest)
    exact ih _ (fun q hq => hpos q (List.mem_cons_of_mem p hq))
      (place_step_inv W H hp.1 hp.2 h)

theorem initState_inv : StateInv initState :=
  ⟨le_refl 0, le_refl 0, by simp [initState], List.Pairwise.nil, by simp [initState]⟩

/-- Claim C3: no overlap.  When every panel has positive width and
height, any two placements on the same output sheet have rectangles
sharing no area. -/
theorem C3_no_overlap (W H : ℚ) (panels : List Panel)
    (hpos : ∀ p ∈ panels, 0 < p.w ∧ 0 < p.h) :
    ∀ sheet ∈ pack W H panels, sheet.Pairwise (fun a b => ¬ Overlaps a b) := by
  have hpos' : ∀ p ∈ sortPanels panels, 0 ≤ p.w ∧ 0 ≤ p.h := by
    intro p hp
    have h := hpos p ((sortPanels_perm panels).mem_iff.mp hp)
    exact ⟨le_of_lt h.1, le_of_lt h.2⟩
  have hinv := foldl_inv W H (sortPanels panels) initState hpos' initState_inv
  intro sheet hsheet
  unfold pack sheetsOf at hsheet
  rcases List.mem_append.mp hsheet with hsheet | hsheet
  · exact hinv.2.2.2.2 sheet hsheet
  · rcases List.mem_singleton.mp hsheet with rfl
    exact hinv.2.2.2.1

/-- Witness for C3 at the worked example of spec section 8: three
800 by 600 panels on a 2440 by 1220 sheet. -/
theorem C3_witness :
    (∀ p ∈ [(⟨800, 600, 18⟩ : Panel), ⟨800, 600, 18⟩, ⟨800, 600, 18⟩],
        0 < p.w ∧ 0 < p.h) ∧
      ∀ sheet ∈ pack 2440 1220 [⟨800, 600, 18⟩, ⟨800, 600, 18⟩, ⟨800, 600, 18⟩],
        sheet.Pairwise (fun a b => ¬ Overlaps a b) :=
  ⟨by with_unfolding_all decide,
    C3_no_overlap 2440 1220 _ (by with_unfolding_all decide)⟩

/-- A panel with the informational depth field erased: only the
geometry the placement loop reads. -/
structure GPanel where
  w : ℚ
  h : ℚ
deriving DecidableEq, Repr

/-- A placement with the carried depth erased. -/
structure GPlaced where
  x : ℚ
  y : ℚ
  pw : ℚ
  ph : ℚ
  rotated : Bool
deriving DecidableEq, Repr

/-- Loop state over depth-erased placements. -/
structure GState where
  sheets : List (List GPlaced)
  current : List GPlaced
  x_cursor : ℚ
  y_cursor : ℚ
  row_height : ℚ
deriving DecidableEq, Repr

def stripPanel (p : Panel) : GPanel := ⟨p.w, p.h⟩

def stripPlaced (q : Placed) : GPlaced := ⟨q.x, q.y, q.pw, q.ph, q.rotated⟩

def stripState (s : PackState) : GState :=
  ⟨s.sheets.map (List.map stripPlaced), s.current.map stripPlaced,
    s.x_cursor, s.y_cursor, s.row_height⟩

/-- insert_panel with depth erased: identical comparisons. -/
def insertG (p : GPanel) : List GPanel → List GPanel
  | [] => [p]
  | q :: rest =>
    if p.w * p.h ≤ q.w * q.h then q :: insertG p rest else p :: q :: rest

/-- sortPanels with depth erased. -/
def sortG (l : List GPanel) : List GPanel :=
  l.foldl (fun acc p => insertG p acc) []

/-- place_step with depth erased: identical cursor arithmetic and
identical branch conditions. -/
def place_stepG (sheet_width sheet_height : ℚ) (s : GState) (p : GPanel) : GState :=
  if s.x_cursor + p.w ≤ sheet_width ∧ s.y_cursor + p.h ≤ sheet_height then
    { s with current := s.current ++ [⟨s.x_cursor, s.y_cursor, p.w, p.h, false⟩],
             x_cursor := s.x_cursor + p.w,
             row_height := max s.row_height p.h }
  else if s.x_cursor + p.h ≤ sheet_width ∧ s.y_cursor + p.w ≤ sheet_height then
    { s with current := s.current ++ [⟨s.x_cursor, s.y_cursor, p.h, p.w, true⟩],
             x_cursor := s.x_cursor + p.h,
             row_height := max s.row_height p.w }
  else
    if s.y_cursor + s.row_height + p.h ≤ sheet_height then
      { s with current := s.current ++
                 [⟨0, s.y_cursor + s.row_height, p.w, p.h, false⟩],
               x_cursor := p.w, y_cursor := s.y_cursor + s.row_height,
               row_height := max 0 p.h }
    else if s.y_cursor + s.row_height + p.w ≤ sheet_height then
      { s with current := s.current ++
                 [⟨0, s.y_cursor + s.row_height, p.h, p.w, true⟩],
               x_cursor := p.h, y_cursor := s.y_cursor + s.row_height,
               row_height := max 0 p.w }
    else
      { sheets := s.sheets ++ [s.current],
        current := [⟨0, 0, p.w, p.h, false⟩],
        x_cursor := p.w, y_cursor := 0, row_height := p.h }

def initG : GState := ⟨[], [], 0, 0, 0⟩

/-- pack with depth erased. -/
def packG (sheet_width sheet_height : ℚ) (l : List GPanel) : List (List GPlaced) :=
  (let s := (sortG l).foldl (place_stepG sheet_width sheet_height) initG
   s.sheets ++ [s.current])

theorem strip_insert (p : Panel) (l : List Panel) :
    (insert_panel p l).map stripPanel = insertG (stripPanel p) (l.map stripPanel) := by
  induction l with
  | nil => rfl
  | cons q rest ih =>
    unfold insert_panel insertG
    dsimp only [stripPanel, List.map_cons]
    split_ifs
    · simp [ih, stripPanel]
    · simp [stripPanel]

theorem strip_sort_foldl (l : List Panel) :
    ∀ acc : List Panel,
      (l.foldl (fun acc p => insert_panel p acc) acc).map stripPanel =
        (l.map stripPanel).foldl (fun acc p => insertG p acc) (acc.map stripPanel) := by
  induction l with
  | nil => intro acc; rfl
  | cons p rest ih =>
    intro acc
    rw [List.foldl_cons, List.map_cons, List.foldl_cons, ih, strip_insert]

theorem strip_sort (l : List Panel) :
    (sortPanels l).map stripPanel = sortG (l.map stripPanel) := by
  simpa [sortPanels, sortG] using strip_sort_foldl l []

theorem strip_step (W H : ℚ) (s : PackState) (p : Panel) :
    stripState (place_step W H s p) = place_stepG W H (stripState s) (stripPanel p) := by
  unfold place_step place_stepG
  dsimp only [stripState, stripPanel]
  split_ifs <;> simp [stripState, stripPlaced]

theorem strip_fold (W H : ℚ) (ps : List Panel) :
    ∀ s : PackState,
      stripState (ps.foldl (place_step W H) s) =
        (ps.map stripPanel).foldl (place_stepG W H) (stripState s) := by
  induction ps with
  | nil => intro s; rfl
  | cons p rest ih =>
    intro s
    rw [List.foldl_cons, List.map_cons, List.foldl_cons, ih, strip_step]

theorem strip_pack (W H : ℚ) (l : List Panel) :
    (pack W H l).map (List.map stripPlaced) = packG W H (l.map stripPanel) := by
  unfold pack packG sheetsOf
  dsimp only
  rw [← strip_sort]
  have h0 : initG = stripState initState := rfl
  rw [h0, ← strip_fold]
  simp [stripState]

/-- Claim C9: depth non-interference.  Two instance lists with the same
widths and heights, differing only in depths, pack to the same number
of sheets with identical placements in every field except the carried
depth. -/
theorem C9_depth_independence (W H : ℚ) (ps qs : List Panel)
    (hgeom : ps.map stripPanel = qs.map stripPanel) :
    (pack W H ps).length = (pack W H qs).length ∧
      (pack W H ps).map (List.map stripPlaced) =
        (pack W H qs).map (List.map stripPlaced) := by
  have h : (pack W H ps).map (List.map stripPlaced) =
      (pack W H qs).map (List.map stripPlaced) := by
    rw [strip_pack, strip_pack, hgeom]
  refine ⟨?_, h⟩
  have := congrArg List.length h
  simpa using this

/-- Witness for C9: two copies of a 3 by 2 panel with depths 5 and 9
pack identically apart from depth. -/
theorem C9_witness :
    [(⟨3, 2, 5⟩ : Panel)].map stripPanel = [(⟨3, 2, 9⟩ : Panel)].map stripPanel ∧
      (pack 10 10 [⟨3, 2, 5⟩]).length = (pack 10 10 [⟨3, 2, 9⟩]).length ∧
      (pack 10 10 [⟨3, 2, 5⟩]).map (List.map stripPlaced) =
        (pack 10 10 [⟨3, 2, 9⟩]).map (List.map stripPlaced) :=
  ⟨by with_unfolding_all decide,
    C9_depth_independence 10 10 [⟨3, 2, 5⟩] [⟨3, 2, 9⟩]
      (by with_unfolding_all decide)⟩

/-- The sheets-so-far are nonempty, and the open sheet can only be
empty in the pristine cursor state. -/
def NonemptyInv (s : PackState) : Prop :=
  (∀ sheet ∈ s.sheets, sheet ≠ []) ∧
    (s.current = [] → s.x_cursor = 0 ∧ s.y_cursor = 0 ∧ s.row_height = 0)

theorem place_step_nonempty_inv (W H : ℚ) {s : PackState} {p : Panel}
    (hfit : fitsEither W H p) (h : NonemptyInv s) :
    NonemptyInv (place_step W H s p) := by
  obtain ⟨hsheets, hcur⟩ := h
  unfold place_step
  split_ifs with h1 h2 h3 h4
  · exact ⟨hsheets, by simp⟩
  · exact ⟨hsheets, by simp⟩
  · exact ⟨hsheets, by simp⟩
  · exact ⟨hsheets, by simp⟩
  · have hne : s.current ≠ [] := by
      intro hnil
      obtain ⟨hx, hy, -⟩ := hcur hnil
      rw [hx, hy, zero_add, zero_add] at h1 h2
      rcases hfit with hfit | hfit
      · exact h1 ⟨hfit.1, hfit.2⟩
      · exact h2 ⟨hfit.1, hfit.2⟩
    refine ⟨?_, by simp⟩
    intro sheet hsheet
    rcases List.mem_append.mp hsheet with hs' | hs'
    · exact hsheets sheet hs'
    · rcases List.mem_singleton.mp hs' with rfl
      exact hne

theorem foldl_nonempty_inv (W H : ℚ) (ps : List Panel) :
    ∀ s : PackState, (∀ p ∈ ps, fitsEither W H p) → NonemptyInv s →
      NonemptyInv (ps.foldl (place_step W H) s) := by
  induction ps with
  | nil => intro s _ h; exact h
  | cons p rest ih =>
    intro s hfit h
    exact ih _ (fun q hq => hfit q (List.mem_cons_of_mem p hq))
      (place_step_nonempty_inv W H (hfit p (List.mem_cons_self p rest)) h)

theorem place_step_current_ne_nil (W H : ℚ) (s : PackState) (p : Panel) :
    (place_step W H s p).current ≠ [] := by
  unfold place_step
  split_ifs <;> simp

theorem foldl_current_ne_nil (W H : ℚ) (ps : List Panel) :
    ∀ s : PackState, ps ≠ [] → (ps.foldl (place_step W H) s).current ≠ [] := by
  induction ps with
  | nil => intro s h; exact absurd rfl h
  | cons p rest ih =>
    intro s _
    rw [List.foldl_cons]
    rcases eq_or_ne rest [] with rfl | hne
    · exact place_step_current_ne_nil W H s p
    · exact ih _ hne

theorem sortPanels_ne_nil {l : List Panel} (h : l ≠ []) : sortPanels l ≠ [] := by
  intro hnil
  have := (sortPanels_perm l).length_eq
  rw [hnil] at this
  exact h (List.eq_nil_of_length_eq_zero this.symm)

/-- Claim C10 counterexample: as stated, the claim is refuted by the
empty instance list, on which every instance vacuously fits yet the
result is one sheet with zero placements. -/
theorem C10_counterexample :
    ¬ (1 ≤ (pack 2440 1220 []).length ∧
        pack 2440 1220 [] = [[]] ∧
        ((∀ p ∈ ([] : List Panel), fitsEither 2440 1220 p) →
          ∀ sheet ∈ pack 2440 1220 [], sheet ≠ [])) := by
  with_unfolding_all decide

/-- Claim C10, amended: the packing result always contains at least one
sheet; the empty instance list yields exactly one sheet with zero
placements; and on a nonempty instance list in which every instance
fits the sheet in at least one orientation, every output sheet holds
at least one placement. -/
theorem C10_amended (W H : ℚ) (panels : List Panel) :
    1 ≤ (pack W H panels).length ∧
      (panels = [] → pack W H panels = [[]]) ∧
      (panels ≠ [] → (∀ p ∈ panels, fitsEither W H p) →
        ∀ sheet ∈ pack W H panels, sheet ≠ []) := by
  refine ⟨?_, ?_, ?_⟩
  · unfold pack sheetsOf
    rw [List.length_append]
    simp
  · rintro rfl
    rfl
  · intro hne hfit sheet hsheet
    have hfit' : ∀ p ∈ sortPanels panels, fitsEither W H p := by
      intro p hp
      exact hfit p ((sortPanels_perm panels).mem_iff.mp hp)
    have hinv := foldl_nonempty_inv W H (sortPanels panels) initState hfit'
      ⟨by simp [initState], fun _ => ⟨rfl, rfl, rfl⟩⟩
    unfold pack sheetsOf at hsheet
    rcases List.mem_append.mp hsheet with h | h
    · exact hinv.1 sheet h
    · rcases List.mem_singleton.mp h with rfl
      exact foldl_current_ne_nil W H (sortPanels panels) initState
        (sortPanels_ne_nil hne)

/-- Witness for the amended C10 at a concrete run: one fitting panel on
a 10 by 10 sheet gives one nonempty sheet. -/
theorem C10_witness :
    1 ≤ (pack 10 10 [(⟨3, 2, 1⟩ : Panel)]).length ∧
      ∀ sheet ∈ pack 10 10 [(⟨3, 2, 1⟩ : Panel)], sheet ≠ [] :=
  ⟨(C10_amended 10 10 [⟨3, 2, 1⟩]).1,
    (C10_amended 10 10 [⟨3, 2, 1⟩]).2.2 (by with_unfolding_all decide)
      (by with_unfolding_all decide)⟩

/-- Claim C1: the bounds invariant fails on the code.  On a 2440 by 1220
sheet, a 3000 by 100 panel is committed at the origin with
placed_width 3000, so x plus placed_width exceeds sheet_width: the
placement loop of app.py has no check that a panel fits the sheet
before the row-close branch places it. -/
theorem C1_bounds_violated :
    ¬ (∀ sheet ∈ pack 2440 1220 [⟨3000, 100, 18⟩], ∀ p ∈ sheet,
        0 ≤ p.x ∧ 0 ≤ p.y ∧ p.x + p.pw ≤ 2440 ∧ p.y + p.ph ≤ 1220) := by
  with_unfolding_all decide

/-- Claim C2: the engine never fails with PanelTooLargeForSheet.  The
3000 by 100 panel fits a 2440 by 1220 sheet in neither orientation,
yet arrange_panels is a total function that silently returns a
placement for it instead of an error. -/
theorem C2_no_too_large_error :
    ¬ fitsEither 2440 1220 ⟨3000, 100, 18⟩ ∧
      pack 2440 1220 [⟨3000, 100, 18⟩] =
        [[⟨0, 0, 3000, 100, 18, false⟩]] := by
  constructor
  · with_unfolding_all decide
  · with_unfolding_all rfl

/-- Claim C4: on an empty request list the code returns one empty sheet,
not zero sheets: the final append at app.py line 72 is unconditional. -/
theorem C4_empty_input_one_empty_sheet :
    arrange_panels 2440 1220 [] = [[]] := by with_unfolding_all rfl

/-- Claim C8: utilization is not bounded by 100 on the code.  A single
3000 by 1220 request on a 2440 by 1220 sheet yields one sheet and a
utilization of 7500 / 61, about 122.95 percent; the reported waste
percentage is its complement by construction. -/
theorem C8_utilization_exceeds_100 :
    (arrange_panels 2440 1220 [⟨3000, 1220, 18, 1⟩]).length = 1 ∧
      100 < utilization 2440 1220 [⟨3000, 1220, 18, 1⟩] ∧
      waste_percentage 2440 1220 [⟨3000, 1220, 18, 1⟩] =
        100 - utilization 2440 1220 [⟨3000, 1220, 18, 1⟩] := by
  refine ⟨by with_unfolding_all rfl, by with_unfolding_all decide, rfl⟩

end Plywood
